import Mathlib

/-!
# Verification of the browser-history analysis pipeline

A shallow embedding, in Lean, of the chunking / per-chunk analysis /
consolidation / aggregation pipeline of the repository
(`history_analyzer.py`, `llm_client.py`, `data_extractor.py`,
`report_generator.py`), together with theorems settling the behavioural
claims about it.

Python strings are modelled as `List Char` where only lengths and slices
matter (the chunker), as Lean `String` where only equality matters
(descriptions, categories, topics), and as `List Nat` of code points where
case mapping matters (the topic aggregation).  Python `None` becomes
`Option`, Python dictionaries with insertion order become association
lists, and the external LLM/HTTP world is passed in as explicit data.
-/

namespace BrowserRecall

/-! ## Chunker — `history_analyzer.py`, `analyze_history`, lines 153-170

The loop:
```
start = 0
while start < len(full_content):
    end = start + max_content_length
    content_chunks.append(full_content[start:end])
    next_start = end - chunk_overlap
    if next_start <= start:
         next_start = start + max_content_length
    start = next_start
    if start >= len(full_content):
        break
```
is modelled with explicit fuel (`C.length` iterations always suffice when
`0 < M`, since every step advances `start` by at least one).  Each chunk is
returned together with its window start, so that the claims about spans can
be stated.  Natural subtraction in `nextStart` agrees with the Python
integer arithmetic for every `overlap ≥ 0`: the reset branch is taken
exactly when `max_length ≤ overlap`.
-/

/-- The next window start computed at the bottom of the chunking loop:
`next_start = (start + max_length) - overlap`, reset to
`start + max_length` whenever that would fail to advance
(`next_start <= start`). -/
def nextStart (M O start : Nat) : Nat :=
  if start + M - O ≤ start then start + M else start + M - O

/-- One run of the chunking `while` loop, entered with `start < C.length`:
append the slice `C[start : start+M]`, stop as soon as the computed next
start reaches or passes the end of the content. -/
def splitChunksGo (C : List Char) (M O : Nat) : Nat → Nat → List (Nat × List Char)
  | 0, _ => []
  | fuel + 1, start =>
    if C.length ≤ nextStart M O start then [(start, (C.drop start).take M)]
    else (start, (C.drop start).take M) :: splitChunksGo C M O fuel (nextStart M O start)

/-- `split(content, max_length, overlap)`: content that already fits is
returned as a single chunk (`content_chunks.append(full_content)`);
oversized content goes through the chunking loop. -/
def split (C : List Char) (M O : Nat) : List (Nat × List Char) :=
  if M < C.length then splitChunksGo C M O C.length 0 else [(0, C)]

lemma nextStart_lt (M O start : Nat) (hM : 0 < M) : start < nextStart M O start := by
  unfold nextStart; split <;> omega

lemma nextStart_le (M O start : Nat) : nextStart M O start ≤ start + M := by
  unfold nextStart; split <;> omega

lemma splitChunksGo_coverage (C : List Char) (M O : Nat) (hM : 0 < M) :
    ∀ fuel start, start < C.length → C.length - start ≤ fuel →
      ∀ i, start ≤ i → i < C.length →
        ∃ p ∈ splitChunksGo C M O fuel start, p.1 ≤ i ∧ i < p.1 + p.2.length := by
  intro fuel
  induction fuel with
  | zero => intro start h1 h2; omega
  | succ fuel ih =>
    intro start h1 h2 i hi1 hi2
    have hlen : ((C.drop start).take M).length = min M (C.length - start) := by
      simp [List.length_take, List.length_drop]
    by_cases hstop : C.length ≤ nextStart M O start
    · refine ⟨(start, (C.drop start).take M), ?_, hi1, ?_⟩
      · simp [splitChunksGo, hstop]
      · have := nextStart_le M O start
        simp only [hlen]; omega
    · by_cases hin : i < nextStart M O start
      · refine ⟨(start, (C.drop start).take M), ?_, hi1, ?_⟩
        · simp [splitChunksGo, hstop]
        · have := nextStart_le M O start
          simp only [hlen]; omega
      · have hlt := nextStart_lt M O start hM
        obtain ⟨p, hp, h3, h4⟩ := ih (nextStart M O start) (by omega) (by omega) i (by omega) hi2
        refine ⟨p, ?_, h3, h4⟩
        simp [splitChunksGo, hstop, hp]

/-- C1: for every content `C`, every `max_length M > 0` and every
`overlap O ≥ 0` (overlap is a natural number here), the chunks produced by
`split` cover `C` completely: every character index of `C` lies inside the
span of at least one returned chunk. -/
theorem split_covers (C : List Char) (M O : Nat) (hM : 0 < M)
    (i : Nat) (hi : i < C.length) :
    ∃ p ∈ split C M O, p.1 ≤ i ∧ i < p.1 + p.2.length := by
  unfold split
  by_cases h : M < C.length
  · simp only [if_pos h]
    exact splitChunksGo_coverage C M O hM C.length 0 (by omega) (by omega) i (Nat.zero_le _) hi
  · simp only [if_neg h]
    exact ⟨(0, C), List.mem_singleton.mpr rfl, Nat.zero_le _, by simpa using hi⟩

/-- Witness for `split_covers` at content length 10, `max_length 3`,
`overlap 1`, index 5. -/
theorem split_covers_witness :
    0 < 3 ∧ 5 < (List.replicate 10 'a').length ∧
      ∃ p ∈ split (List.replicate 10 'a') 3 1, p.1 ≤ 5 ∧ 5 < p.1 + p.2.length :=
  ⟨by decide, by decide, split_covers (List.replicate 10 'a') 3 1 (by decide) 5 (by decide)⟩

lemma splitChunksGo_last (C : List Char) (M O : Nat) (hM : 0 < M) :
    ∀ fuel start, start < C.length → C.length - start ≤ fuel →
      ∃ s l, splitChunksGo C M O fuel start = l ++ [(s, C.drop s)] ∧
        C.length ≤ nextStart M O s ∧ (C.drop s).length ≤ M ∧
        ∀ p ∈ l, nextStart M O p.1 < C.length := by
  intro fuel
  induction fuel with
  | zero => intro start h1 h2; omega
  | succ fuel ih =>
    intro start h1 h2
    by_cases hstop : C.length ≤ nextStart M O start
    · have htail : (C.drop start).length ≤ M := by
        have := nextStart_le M O start
        simp only [List.length_drop]; omega
      refine ⟨start, [], ?_, hstop, htail, by simp⟩
      simp [splitChunksGo, hstop, List.take_of_length_le htail]
    · have hlt := nextStart_lt M O start hM
      obtain ⟨s, l, heq, hge, hresid, hall⟩ :=
        ih (nextStart M O start) (by omega) (by omega)
      refine ⟨s, (start, (C.drop start).take M) :: l, ?_, hge, hresid, ?_⟩
      · simp [splitChunksGo, hstop, heq]
      · intro p hp
        rcases List.mem_cons.mp hp with h | h
        · subst h; show nextStart M O start < C.length; omega
        · exact hall p h

/-- Counterexample to C2 as stated: with content length 10,
`max_length 9`, `overlap 5`, the produced chunk starts are `[0, 4, 8]`.
The second chunk's window is `[4, 13)`, whose end `13` reaches past the
content end `10`, and yet a further chunk (start `8`) is produced after
it: the loop stops on the next window *start* passing the end, not on a
window *end* passing it. -/
theorem split_stop_counterexample :
    9 < (List.replicate 10 'a').length ∧
      (split (List.replicate 10 'a') 9 5).map Prod.fst = [0, 4, 8] ∧
      (List.replicate 10 'a').length ≤ 4 + 9 := by
  refine ⟨by decide, ?_, by decide⟩
  decide

/-- C2 (amended): for oversized content, the loop stops as soon as the
*next window start* (window end minus overlap, or `start + max_length`
when the overlap step would not advance) reaches or passes the end of the
content: the final chunk is the unique chunk whose computed next start
reaches or passes `C.length`, every earlier chunk has its next start
strictly before the end, and the final chunk is the residual tail
`C[s:]`, of length at most `max_length`. -/
theorem split_last_amended (C : List Char) (M O : Nat) (hM : 0 < M) (hlen : M < C.length) :
    ∃ s l, split C M O = l ++ [(s, C.drop s)] ∧
      C.length ≤ nextStart M O s ∧ (C.drop s).length ≤ M ∧
      ∀ p ∈ l, nextStart M O p.1 < C.length := by
  unfold split
  rw [if_pos hlen]
  exact splitChunksGo_last C M O hM C.length 0 (by omega) (by omega)

/-- Witness for `split_last_amended`: content length 10, `max_length 4`,
`overlap 1`. -/
theorem split_last_amended_witness :
    0 < 4 ∧ 4 < (List.replicate 10 'a').length ∧
      ∃ s l, split (List.replicate 10 'a') 4 1 = l ++ [(s, (List.replicate 10 'a').drop s)] ∧
        (List.replicate 10 'a').length ≤ nextStart 4 1 s ∧
        ((List.replicate 10 'a').drop s).length ≤ 4 ∧
        ∀ p ∈ l, nextStart 4 1 p.1 < (List.replicate 10 'a').length :=
  ⟨by decide, by decide, split_last_amended (List.replicate 10 'a') 4 1 (by decide) (by decide)⟩

lemma splitChunksGo_head (C : List Char) (M O : Nat) (fuel start : Nat) :
    splitChunksGo C M O (fuel + 1) start =
      (start, (C.drop start).take M) :: splitChunksGo C M O fuel (nextStart M O start) ∨
    splitChunksGo C M O (fuel + 1) start = [(start, (C.drop start).take M)] := by
  by_cases hstop : C.length ≤ nextStart M O start
  · right; simp [splitChunksGo, hstop]
  · left; simp [splitChunksGo, hstop]

lemma splitChunksGo_chain (C : List Char) (M O : Nat) (hMO : M ≤ O) :
    ∀ fuel start, (splitChunksGo C M O fuel start).Chain' (fun p q => q.1 = p.1 + M) := by
  have hns : ∀ start, nextStart M O start = start + M := by
    intro start; unfold nextStart
    rw [if_pos (by omega)]
  intro fuel
  induction fuel with
  | zero => intro start; simp [splitChunksGo]
  | succ fuel ih =>
    intro start
    by_cases hstop : C.length ≤ nextStart M O start
    · simp [splitChunksGo, hstop]
    · rw [splitChunksGo, if_neg hstop]
      cases fuel with
      | zero => simp [splitChunksGo]
      | succ fuel' =>
        rcases splitChunksGo_head C M O fuel' (nextStart M O start) with heq | heq <;>
          rw [heq] <;>
          exact List.chain'_cons.mpr ⟨by rw [hns], by rw [← heq]; exact ih _⟩

/-- C9: with pathological overlap `O ≥ M` (and `M > 0`) the chunking loop
still terminates and makes forward progress: each successive window start
is strictly greater than the previous one, advancing by at least `M`
(in fact by exactly `M`), and for oversized content the loop provably
reaches its stopping condition, the final chunk being the residual tail. -/
theorem split_pathological_progress (C : List Char) (M O : Nat) (hM : 0 < M) (hMO : M ≤ O) :
    (split C M O).Chain' (fun p q => p.1 < q.1 ∧ p.1 + M ≤ q.1) ∧
      (M < C.length →
        ∃ s l, split C M O = l ++ [(s, C.drop s)] ∧ C.length ≤ nextStart M O s) := by
  constructor
  · unfold split
    split
    · exact (splitChunksGo_chain C M O hMO C.length 0).imp (fun h => by omega)
    · simp
  · intro hlen
    obtain ⟨s, l, heq, hge, _, _⟩ := split_last_amended C M O hM hlen
    exact ⟨s, l, heq, hge⟩

/-- Witness for `split_pathological_progress`: content length 5,
`max_length 2`, `overlap 3`. -/
theorem split_pathological_progress_witness :
    0 < 2 ∧ 2 ≤ 3 ∧
      ((split (List.replicate 5 'a') 2 3).Chain' (fun p q => p.1 < q.1 ∧ p.1 + 2 ≤ q.1) ∧
        (2 < (List.replicate 5 'a').length →
          ∃ s l, split (List.replicate 5 'a') 2 3 = l ++ [(s, (List.replicate 5 'a').drop s)] ∧
            (List.replicate 5 'a').length ≤ nextStart 2 3 s)) :=
  ⟨by decide, by decide, split_pathological_progress (List.replicate 5 'a') 2 3 (by decide) (by decide)⟩

/-! ## First-seen deduplication and Counter mode

`list(dict.fromkeys(xs))` (used for topics) keeps the distinct elements of
`xs` in first-seen order; `Counter(xs).most_common(1)[0][0]` (used for the
fallback category) returns the first-encountered key among those with the
maximal multiplicity — `Counter` keys are in first-encounter order and
`most_common` sorts by count, descending and stable. -/

/-- `list(dict.fromkeys(l))`: distinct elements of `l` in first-seen order. -/
def dedupFirstSeen : List String → List String
  | [] => []
  | x :: xs => x :: dedupFirstSeen (xs.filter (fun y => y != x))
termination_by l => l.length
decreasing_by
  simp only [List.length_cons]
  exact Nat.lt_succ_of_le (List.length_filter_le _ _)

lemma mem_dedupFirstSeen (l : List String) (a : String) :
    a ∈ dedupFirstSeen l ↔ a ∈ l := by
  induction l using dedupFirstSeen.induct with
  | case1 => simp [dedupFirstSeen]
  | case2 x xs ih =>
    rw [dedupFirstSeen]
    simp only [List.mem_cons, ih, List.mem_filter, bne_iff_ne, ne_eq]
    constructor
    · rintro (rfl | ⟨h, _⟩)
      · exact Or.inl rfl
      · exact Or.inr h
    · rintro (rfl | h)
      · exact Or.inl rfl
      · by_cases hax : a = x
        · exact Or.inl hax
        · exact Or.inr ⟨h, by simpa using hax⟩

lemma dedupFirstSeen_sublist (l : List String) : List.Sublist (dedupFirstSeen l) l := by
  induction l using dedupFirstSeen.induct with
  | case1 => simp [dedupFirstSeen]
  | case2 x xs ih =>
    rw [dedupFirstSeen]
    exact (ih.trans (List.filter_sublist xs)).cons₂ x

lemma dedupFirstSeen_nodup (l : List String) : (dedupFirstSeen l).Nodup := by
  induction l using dedupFirstSeen.induct with
  | case1 => simp [dedupFirstSeen]
  | case2 x xs ih =>
    rw [dedupFirstSeen]
    refine List.nodup_cons.mpr ⟨fun h => ?_, ih⟩
    have := (mem_dedupFirstSeen _ _).mp h
    simp at this

lemma dedupFirstSeen_eq_nil (l : List String) : dedupFirstSeen l = [] ↔ l = [] := by
  cases l <;> simp [dedupFirstSeen]

lemma indexOf_filter_lt (p : String → Bool) :
    ∀ (xs : List String) (a b : String), a ∈ xs.filter p → b ∈ xs.filter p →
      (xs.filter p).indexOf a < (xs.filter p).indexOf b →
      xs.indexOf a < xs.indexOf b := by
  intro xs
  induction xs with
  | nil => intro a b ha; simp at ha
  | cons x xs ih =>
    intro a b ha hb hlt
    by_cases hpx : p x
    · rw [List.filter_cons_of_pos hpx] at ha hb hlt
      by_cases hax : a = x
      · subst hax
        have hba : b ≠ a := by
          rintro rfl; simp at hlt
        rw [List.indexOf_cons_self]
        rw [List.indexOf_cons_ne _ (Ne.symm hba)]
        omega
      · by_cases hbx : b = x
        · subst hbx
          rw [List.indexOf_cons_self] at hlt
          omega
        · rw [List.indexOf_cons_ne _ (fun h => hax h.symm),
            List.indexOf_cons_ne _ (fun h => hbx h.symm)] at hlt ⊢
          have ha' : a ∈ xs.filter p := by
            rcases List.mem_cons.mp ha with h | h
            · exact absurd h hax
            · exact h
          have hb' : b ∈ xs.filter p := by
            rcases List.mem_cons.mp hb with h | h
            · exact absurd h hbx
            · exact h
          exact Nat.succ_lt_succ (ih a b ha' hb' (by omega))
    · rw [List.filter_cons_of_neg hpx] at ha hb hlt
      have hax : a ≠ x := fun h => hpx (h ▸ (List.mem_filter.mp ha).2)
      have hbx : b ≠ x := fun h => hpx (h ▸ (List.mem_filter.mp hb).2)
      rw [List.indexOf_cons_ne _ (fun h => hax h.symm),
        List.indexOf_cons_ne _ (fun h => hbx h.symm)]
      exact Nat.succ_lt_succ (ih a b ha hb hlt)

/-- The deduplicated list is ordered by first occurrence in the original
list: it is pairwise increasing with respect to `l.indexOf`. -/
lemma dedupFirstSeen_pairwise (l : List String) :
    (dedupFirstSeen l).Pairwise (fun a b => l.indexOf a < l.indexOf b) := by
  induction l using dedupFirstSeen.induct with
  | case1 => simp [dedupFirstSeen]
  | case2 x xs ih =>
    rw [dedupFirstSeen]
    refine List.pairwise_cons.mpr ⟨fun b hb => ?_, ?_⟩
    · have hb' := (mem_dedupFirstSeen _ _).mp hb
      have hbx : b ≠ x := by
        intro h; subst h; simp at hb'
      rw [List.indexOf_cons_self, List.indexOf_cons_ne _ (fun h => hbx h.symm)]
      omega
    · refine ih.imp_of_mem ?_
      intro a b ha hb hlt
      have ha' := (mem_dedupFirstSeen _ _).mp ha
      have hb' := (mem_dedupFirstSeen _ _).mp hb
      have hax : a ≠ x := by simpa using (List.mem_filter.mp ha').2
      have hbx : b ≠ x := by simpa using (List.mem_filter.mp hb').2
      rw [List.indexOf_cons_ne _ (fun h => hax h.symm),
        List.indexOf_cons_ne _ (fun h => hbx h.symm)]
      exact Nat.succ_lt_succ (indexOf_filter_lt _ xs a b ha' hb' hlt)

/-- `Counter(l).most_common(1)[0][0]` scans the counter keys in
first-encounter order and keeps the running best, replacing it only on a
strictly larger count: it returns the first key attaining the maximal
count. -/
def pickMax (cnt : String → Nat) (b : String) (l : List String) : String :=
  l.foldl (fun best x => if cnt best < cnt x then x else best) b

/-- `Counter(l).most_common(1)[0][0]`, `None` when `l` is empty: the
counter keys are the distinct elements of `l` in first-encounter order,
each with its multiplicity in `l`. -/
def mostCommon1 (l : List String) : Option String :=
  match dedupFirstSeen l with
  | [] => none
  | k :: ks => some (pickMax (fun x => l.count x) k ks)

lemma pickMax_spec (cnt : String → Nat) :
    ∀ (l : List String) (b : String),
      ∃ l₁ l₂, b :: l = l₁ ++ pickMax cnt b l :: l₂ ∧
        (∀ y ∈ l₁, cnt y < cnt (pickMax cnt b l)) ∧
        (∀ y ∈ l₂, cnt y ≤ cnt (pickMax cnt b l)) := by
  intro l
  induction l with
  | nil => intro b; exact ⟨[], [], rfl, by simp, by simp⟩
  | cons x xs ih =>
    intro b
    have hfold : pickMax cnt b (x :: xs) = pickMax cnt (if cnt b < cnt x then x else b) xs :=
      rfl
    by_cases hbx : cnt b < cnt x
    · rw [hfold, if_pos hbx]
      obtain ⟨l₁, l₂, heq, h₁, h₂⟩ := ih x
      have hxle : cnt x ≤ cnt (pickMax cnt x xs) := by
        cases l₁ with
        | nil =>
          simp only [List.nil_append] at heq
          injection heq with h1 _
          rw [← h1]
        | cons z l₁' =>
          rw [List.cons_append] at heq
          injection heq with h1 _
          exact le_of_lt (h1 ▸ h₁ z (List.mem_cons_self z l₁'))
      refine ⟨b :: l₁, l₂, by rw [List.cons_append, ← heq], ?_, h₂⟩
      intro y hy
      rcases List.mem_cons.mp hy with rfl | hy'
      · omega
      · exact h₁ y hy'
    · rw [hfold, if_neg hbx]
      obtain ⟨l₁, l₂, heq, h₁, h₂⟩ := ih b
      cases l₁ with
      | nil =>
        simp only [List.nil_append] at heq
        injection heq with h1 h2
        refine ⟨[], x :: xs, by simp [← h1], by simp, ?_⟩
        intro y hy
        rcases List.mem_cons.mp hy with hy1 | hy'
        · rw [hy1, ← h1]; omega
        · exact h₂ y (h2 ▸ hy')
      | cons z l₁' =>
        rw [List.cons_append] at heq
        injection heq with h1 h2
        have hb : cnt b < cnt (pickMax cnt b xs) := by
          have h3 : cnt b = cnt z := by rw [h1]
          rw [h3]; exact h₁ z (List.mem_cons_self z l₁')
        refine ⟨b :: x :: l₁', l₂, ?_, ?_, h₂⟩
        · conv_lhs => rw [h2]
          simp
        · intro y hy
          rcases List.mem_cons.mp hy with hy1 | hy'
          · rw [hy1]; exact hb
          · rcases List.mem_cons.mp hy' with hy2 | hy''
            · rw [hy2]; omega
            · exact h₁ y (List.mem_cons_of_mem z hy'')

/-- The fallback category is the statistical mode with first-encountered
tie-break: `mostCommon1 l` is a key of maximal multiplicity, every key
first encountered before it has strictly smaller multiplicity, and every
key first encountered after it has multiplicity at most its own. -/
lemma mostCommon1_spec (l : List String) (hl : l ≠ []) :
    ∃ c l₁ l₂, mostCommon1 l = some c ∧ c ∈ l ∧
      dedupFirstSeen l = l₁ ++ c :: l₂ ∧
      (∀ y ∈ l₁, l.count y < l.count c) ∧
      (∀ y ∈ l₂, l.count y ≤ l.count c) ∧
      (∀ y ∈ l, l.count y ≤ l.count c) := by
  unfold mostCommon1
  cases hd : dedupFirstSeen l with
  | nil => exact absurd ((dedupFirstSeen_eq_nil l).mp hd) hl
  | cons k ks =>
    obtain ⟨l₁, l₂, heq, h₁, h₂⟩ := pickMax_spec (fun x => l.count x) ks k
    refine ⟨pickMax (fun x => l.count x) k ks, l₁, l₂, rfl, ?_, heq, h₁, h₂, ?_⟩
    · have hmem : pickMax (fun x => l.count x) k ks ∈ k :: ks :=
        heq ▸ List.mem_append_right _ (List.mem_cons_self _ _)
      exact (mem_dedupFirstSeen _ _).mp (hd ▸ hmem)
    · intro y hy
      have hy' : y ∈ k :: ks := hd ▸ (mem_dedupFirstSeen l y).mpr hy
      rw [heq] at hy'
      rcases List.mem_append.mp hy' with h | h
      · exact le_of_lt (h₁ y h)
      · rcases List.mem_cons.mp h with rfl | h
        · exact le_refl _
        · exact h₂ y h

lemma mostCommon1_isSome (l : List String) (hl : l ≠ []) :
    (mostCommon1 l).isSome := by
  obtain ⟨c, _, _, hc, _⟩ := mostCommon1_spec l hl
  rw [hc]; rfl

/-! ## Per-chunk analysis — `history_analyzer.py`, lines 172-214

For every chunk the Gateway either produces no result (`None`: timeout,
transport error, malformed output, missing content) or a parsed JSON
object whose three schema fields may each be missing.  A complete result
appends to the three parallel accumulators `chunk_descriptions`,
`chunk_categories`, `chunk_topics`; anything else contributes nothing. -/

/-- The value of the per-chunk `topics` field: the schema allows a single
string or a list of strings (`isinstance(topics, list)` /
`isinstance(topics, str)` in the source). -/
inductive TopicsField where
  | strVal (s : String)
  | listVal (l : List String)
deriving DecidableEq

/-- `chunk_topics.extend(topics)` for a list, `chunk_topics.append(topics)`
for a scalar string: a scalar is treated as a singleton list. -/
def TopicsField.asList : TopicsField → List String
  | .strVal s => [s]
  | .listVal l => l

/-- A parsed per-chunk LLM analysis; each schema field may be missing from
the returned JSON object. -/
structure ChunkResult where
  description : Option String
  category : Option String
  topics : Option TopicsField
deriving DecidableEq

/-- The three parallel accumulators built by the per-chunk loop. -/
structure ChunkLists where
  descriptions : List String
  categories : List String
  topics : List String
deriving DecidableEq

/-- Lines 200-213: a chunk's contribution to the accumulators.  `none`
models `analyze_record` returning `None`. -/
def processChunk (cl : ChunkLists) (r : Option ChunkResult) : ChunkLists :=
  match r with
  | some res =>
    match res.description, res.category, res.topics with
    | some d, some c, some t =>
      { descriptions := cl.descriptions ++ [d]
      , categories := cl.categories ++ [c]
      , topics := cl.topics ++ t.asList }
    | _, _, _ => cl
  | none => cl

/-- The whole per-chunk loop over the chunks' Gateway outcomes. -/
def processChunks (results : List (Option ChunkResult)) : ChunkLists :=
  results.foldl processChunk ⟨[], [], []⟩

/-- C6: a chunk whose Gateway call returns no result, or whose result is
missing any of `description`, `category`, `topics`, contributes nothing —
all three accumulators are left unchanged, no partial fields are kept.
Only a result with all three fields appends the description and the
category and extends the topics, a scalar topic string being treated as a
singleton list. -/
theorem chunk_failure_contributes_nothing (cl : ChunkLists) :
    processChunk cl none = cl ∧
    (∀ r : ChunkResult,
      (r.description = none ∨ r.category = none ∨ r.topics = none) →
        processChunk cl (some r) = cl) ∧
    (∀ d c l, processChunk cl (some ⟨some d, some c, some (.listVal l)⟩) =
      ⟨cl.descriptions ++ [d], cl.categories ++ [c], cl.topics ++ l⟩) ∧
    (∀ d c s, processChunk cl (some ⟨some d, some c, some (.strVal s)⟩) =
      ⟨cl.descriptions ++ [d], cl.categories ++ [c], cl.topics ++ [s]⟩) := by
  refine ⟨rfl, ?_, fun d c l => rfl, fun d c s => rfl⟩
  rintro ⟨rd, rc, rt⟩ h
  rcases rd with _ | d <;> rcases rc with _ | c <;> rcases rt with _ | t <;>
    first
      | rfl
      | (exfalso; rcases h with h | h | h <;> simp at h)

/-- Witness for `chunk_failure_contributes_nothing`: a result missing the
`category` field leaves the accumulators untouched. -/
theorem chunk_failure_contributes_nothing_witness :
    processChunk ⟨["d0"], ["c0"], ["t0"]⟩ (some ⟨some "d", none, some (.listVal ["t"])⟩) =
      ⟨["d0"], ["c0"], ["t0"]⟩ :=
  (chunk_failure_contributes_nothing ⟨["d0"], ["c0"], ["t0"]⟩).2.1
    ⟨some "d", none, some (.listVal ["t"])⟩ (Or.inr (Or.inl rfl))

/-! ## Consolidation — `history_analyzer.py`, lines 216-296 -/

/-- A parsed consolidation (summarization) LLM result; the consolidation
schema requires `description`, `category` and a `topics` array, but each
may be missing from the returned object. -/
structure SummaryResult where
  description : Option String
  category : Option String
  topics : Option (List String)
deriving DecidableEq

/-- The record-level outcome `final_description` / `final_category` /
`final_topics` (each `None` until assigned). -/
structure FinalAnalysis where
  description : Option String
  category : Option String
  topics : Option (List String)
deriving DecidableEq

/-- The fallback of lines 287-296 (and, with a different marker, lines
249-260): first chunk description plus a marker, most common category,
de-duplicated topics truncated to 3 — each guarded by the corresponding
accumulator being non-empty. -/
def fallbackCombine (marker : String) (cl : ChunkLists) : FinalAnalysis :=
  { description :=
      match cl.descriptions with
      | [] => none
      | d :: _ => some (d ++ marker)
  , category := if cl.categories = [] then none else mostCommon1 cl.categories
  , topics := if cl.topics = [] then none else some ((dedupFirstSeen cl.topics).take 3) }

/-- Lines 216-296: combining the chunk analyses of one record.
`numChunks` is `len(content_chunks)`, `summaryTemplateHasUser` is whether
the summarization prompt template has a user message, and `summary` is the
outcome of the consolidation Gateway call (made on the multi-chunk path
with a usable template). -/
def combineResults (numChunks : Nat) (cl : ChunkLists)
    (summaryTemplateHasUser : Bool) (summary : Option SummaryResult) : FinalAnalysis :=
  match cl.descriptions with
  | [] => ⟨none, none, none⟩
  | d :: _ =>
    if numChunks = 1 then
      { description := some d
      , category := match cl.categories with | [] => none | c :: _ => some c
      , topics := if cl.topics = [] then none else some ((dedupFirstSeen cl.topics).take 3) }
    else if summaryTemplateHasUser then
      match summary with
      | some r =>
        match r.description, r.category, r.topics with
        | some fd, some fc, some ft => ⟨some fd, some fc, some ft⟩
        | _, _, _ => fallbackCombine " (Summarization failed)" cl
      | none => fallbackCombine " (Summarization failed)" cl
    else fallbackCombine " (Summarization failed - template error)" cl

/-- The topic list a `FinalAnalysis` contributes to the markdown output:
an absent `final_topics` and an empty one are indistinguishable there
(both are falsy, so neither writes a `Topics:` line). -/
def FinalAnalysis.topicsOut (fa : FinalAnalysis) : List String := fa.topics.getD []

lemma processChunk_preserves_lengths (cl : ChunkLists) (r : Option ChunkResult)
    (h : cl.descriptions.length = cl.categories.length) :
    (processChunk cl r).descriptions.length = (processChunk cl r).categories.length := by
  rcases r with _ | ⟨rd, rc, rt⟩
  · exact h
  · rcases rd with _ | d <;> rcases rc with _ | c <;> rcases rt with _ | t <;>
      simp [processChunk, h]

lemma foldl_processChunk_lengths (l : List (Option ChunkResult)) :
    ∀ cl : ChunkLists, cl.descriptions.length = cl.categories.length →
      (l.foldl processChunk cl).descriptions.length =
        (l.foldl processChunk cl).categories.length := by
  induction l with
  | nil => intro cl h; exact h
  | cons r rs ih => intro cl h; exact ih _ (processChunk_preserves_lengths cl r h)

/-- C10: at every point of the per-chunk loop (i.e. after folding any list
of chunk outcomes) the `chunk_descriptions` and `chunk_categories`
accumulators have equal length — every successful chunk appends to both,
every failed chunk appends to neither — so whenever any chunk description
exists the fallback's mode computation is well-defined and the fallback
produces a category alongside its description. -/
theorem parallel_lists_invariant (results : List (Option ChunkResult)) (marker : String) :
    (processChunks results).descriptions.length =
      (processChunks results).categories.length ∧
    ((processChunks results).descriptions ≠ [] →
      (fallbackCombine marker (processChunks results)).description.isSome ∧
      (fallbackCombine marker (processChunks results)).category.isSome) := by
  have hlen : (processChunks results).descriptions.length =
      (processChunks results).categories.length :=
    foldl_processChunk_lengths results ⟨[], [], []⟩ rfl
  refine ⟨hlen, fun hd => ⟨?_, ?_⟩⟩
  · unfold fallbackCombine
    cases hds : (processChunks results).descriptions with
    | nil => exact absurd hds hd
    | cons d ds => simp [hds]
  · have hc : (processChunks results).categories ≠ [] := by
      intro h
      rw [h] at hlen
      exact hd (List.eq_nil_of_length_eq_zero hlen)
    unfold fallbackCombine
    simp only [if_neg hc]
    exact mostCommon1_isSome _ hc

/-- Witness for `parallel_lists_invariant`: one failed chunk followed by
one successful chunk. -/
theorem parallel_lists_invariant_witness :
    ((processChunks [none, some ⟨some "d", some "c", some (.listVal ["t"])⟩]).descriptions.length =
      (processChunks [none, some ⟨some "d", some "c", some (.listVal ["t"])⟩]).categories.length ∧
    ((processChunks [none, some ⟨some "d", some "c", some (.listVal ["t"])⟩]).descriptions ≠ [] →
      (fallbackCombine " (Summarization failed)"
        (processChunks [none, some ⟨some "d", some "c", some (.listVal ["t"])⟩])).description.isSome ∧
      (fallbackCombine " (Summarization failed)"
        (processChunks [none, some ⟨some "d", some "c", some (.listVal ["t"])⟩])).category.isSome)) :=
  parallel_lists_invariant [none, some ⟨some "d", some "c", some (.listVal ["t"])⟩]
    " (Summarization failed)"

/-- C5: a record with exactly one chunk whose analysis succeeded passes
the chunk's description and category through verbatim, and its topics are
deduplicated case-sensitively preserving first-seen order (the result is a
nodup sublist of the chunk's topics, ordered by first occurrence) and
truncated to at most 3.  The summarization template and Gateway play no
role on this path. -/
theorem single_chunk_pass_through (d c : String) (t : TopicsField)
    (flag : Bool) (summary : Option SummaryResult) :
    (combineResults 1 (processChunk ⟨[], [], []⟩ (some ⟨some d, some c, some t⟩))
        flag summary).description = some d ∧
    (combineResults 1 (processChunk ⟨[], [], []⟩ (some ⟨some d, some c, some t⟩))
        flag summary).category = some c ∧
    (combineResults 1 (processChunk ⟨[], [], []⟩ (some ⟨some d, some c, some t⟩))
        flag summary).topicsOut = (dedupFirstSeen t.asList).take 3 ∧
    List.Sublist ((dedupFirstSeen t.asList).take 3) t.asList ∧
    ((dedupFirstSeen t.asList).take 3).Nodup ∧
    ((dedupFirstSeen t.asList).take 3).Pairwise
      (fun a b => t.asList.indexOf a < t.asList.indexOf b) ∧
    ((dedupFirstSeen t.asList).take 3).length ≤ 3 := by
  have hcl : processChunk ⟨[], [], []⟩ (some ⟨some d, some c, some t⟩) =
      ⟨[d], [c], t.asList⟩ := rfl
  rw [hcl]
  refine ⟨rfl, rfl, ?_, ?_, ?_, ?_, ?_⟩
  · by_cases ht : t.asList = [] <;>
      simp [combineResults, FinalAnalysis.topicsOut, ht, dedupFirstSeen]
  · exact (List.take_sublist _ _).trans (dedupFirstSeen_sublist _)
  · exact (dedupFirstSeen_nodup _).sublist (List.take_sublist _ _)
  · exact (dedupFirstSeen_pairwise _).sublist (List.take_sublist _ _)
  · exact List.length_take_le _ _

/-- C3: on the multi-chunk path, when the consolidation Gateway call fails
(`None`) or its result is missing any of the three fields, the fallback
result is: description = first chunk description followed by the
`" (Summarization failed)"` marker; category = the most frequent per-chunk
category with ties broken in favour of the first-encountered one; topics =
the chunk topics deduplicated preserving first-seen order, truncated to at
most 3. -/
theorem multi_chunk_fallback (n : Nat) (results : List (Option ChunkResult))
    (summary : Option SummaryResult) (cl : ChunkLists)
    (hcl : cl = processChunks results) (hn : 2 ≤ n)
    (hd : cl.descriptions ≠ [])
    (hs : summary = none ∨ ∃ r, summary = some r ∧
      (r.description = none ∨ r.category = none ∨ r.topics = none)) :
    combineResults n cl true summary = fallbackCombine " (Summarization failed)" cl ∧
    (∃ d ds, cl.descriptions = d :: ds ∧
      (fallbackCombine " (Summarization failed)" cl).description =
        some (d ++ " (Summarization failed)")) ∧
    (∃ c l₁ l₂,
      (fallbackCombine " (Summarization failed)" cl).category = some c ∧
      c ∈ cl.categories ∧
      dedupFirstSeen cl.categories = l₁ ++ c :: l₂ ∧
      (∀ y ∈ l₁, cl.categories.count y < cl.categories.count c) ∧
      (∀ y ∈ l₂, cl.categories.count y ≤ cl.categories.count c) ∧
      (∀ y ∈ cl.categories, cl.categories.count y ≤ cl.categories.count c)) ∧
    ((fallbackCombine " (Summarization failed)" cl).topicsOut =
      (dedupFirstSeen cl.topics).take 3 ∧
      List.Sublist ((dedupFirstSeen cl.topics).take 3) cl.topics ∧
      ((dedupFirstSeen cl.topics).take 3).Nodup ∧
      ((dedupFirstSeen cl.topics).take 3).Pairwise
        (fun a b => cl.topics.indexOf a < cl.topics.indexOf b) ∧
      ((dedupFirstSeen cl.topics).take 3).length ≤ 3) := by
  have hcat : cl.categories ≠ [] := by
    have hlen : cl.descriptions.length = cl.categories.length := by
      rw [hcl]; exact foldl_processChunk_lengths results ⟨[], [], []⟩ rfl
    intro h
    rw [h] at hlen
    exact hd (List.eq_nil_of_length_eq_zero hlen)
  refine ⟨?_, ?_, ?_, ?_, ?_, ?_, ?_, ?_⟩
  · -- the failed consolidation reduces to the fallback
    cases hds : cl.descriptions with
    | nil => exact absurd hds hd
    | cons d ds =>
      unfold combineResults
      rw [hds]
      simp only [if_neg (by omega : ¬ n = 1), if_pos rfl]
      rcases hs with rfl | ⟨r, rfl, hmiss⟩
      · rfl
      · rcases r with ⟨rd, rc, rt⟩
        rcases rd with _ | fd <;> rcases rc with _ | fc <;> rcases rt with _ | ft <;>
          first
            | rfl
            | (exfalso; rcases hmiss with h | h | h <;> simp at h)
  · cases hds : cl.descriptions with
    | nil => exact absurd hds hd
    | cons d ds => exact ⟨d, ds, rfl, by simp [fallbackCombine, hds]⟩
  · obtain ⟨c, l₁, l₂, hc, hmem, hded, h₁, h₂, hall⟩ := mostCommon1_spec cl.categories hcat
    exact ⟨c, l₁, l₂, by simp [fallbackCombine, if_neg hcat, hc], hmem, hded, h₁, h₂, hall⟩
  · by_cases ht : cl.topics = [] <;>
      simp [fallbackCombine, FinalAnalysis.topicsOut, ht, dedupFirstSeen]
  · exact (List.take_sublist _ _).trans (dedupFirstSeen_sublist _)
  · exact (dedupFirstSeen_nodup _).sublist (List.take_sublist _ _)
  · exact (dedupFirstSeen_pairwise _).sublist (List.take_sublist _ _)
  · exact List.length_take_le _ _

/-- Witness for `multi_chunk_fallback`: two successful chunk analyses,
consolidation call returning no result. -/
theorem multi_chunk_fallback_witness :
    2 ≤ 2 ∧
    combineResults 2
        (processChunks [some ⟨some "d1", some "c1", some (.listVal ["t1", "t2"])⟩,
          some ⟨some "d2", some "c2", some (.listVal ["t1"])⟩]) true none =
      fallbackCombine " (Summarization failed)"
        (processChunks [some ⟨some "d1", some "c1", some (.listVal ["t1", "t2"])⟩,
          some ⟨some "d2", some "c2", some (.listVal ["t1"])⟩]) :=
  ⟨by omega,
    (multi_chunk_fallback 2
      [some ⟨some "d1", some "c1", some (.listVal ["t1", "t2"])⟩,
        some ⟨some "d2", some "c2", some (.listVal ["t1"])⟩]
      none _ rfl (by omega) (by decide) (Or.inl rfl)).1⟩

/-! ## Completion Gateway — `llm_client.py`

`__init__` (lines 10-34) only *logs* on a missing base URL — the `raise`
is commented out in the source — and does not check the API key at all;
`llm_call` (lines 78-191) checks the configuration at call time and wraps
the whole HTTP interaction in `try/except` blocks each of which returns
`None`, so no call-time failure raises past the component boundary. -/

/-- Python truthiness of an optional string: `None` and `""` are falsy. -/
def pyFalsyStr : Option String → Bool
  | none => true
  | some s => s == ""

/-- Python `a or b` on optional strings: `b` when `a` is falsy. -/
def pyOrStr (a b : Option String) : Option String :=
  if pyFalsyStr a then b else a

/-- `s.rstrip('/')` on raw character data. -/
def rstripSlash (s : List Char) : List Char :=
  (s.reverse.dropWhile (fun c => c == '/')).reverse

/-- Python `needle in hay`: substring containment. -/
def containsSub (needle hay : List Char) : Bool :=
  hay.tails.any (fun t => t.take needle.length == needle)

/-- Python `hay.endswith(suffix)`. -/
def strEndsWith (suffix hay : List Char) : Bool :=
  hay.reverse.take suffix.length == suffix.reverse

/-- Lines 29-31: append `/v1` to the base URL unless it mentions
`api.openai.com` or already ends in `/v1`. -/
def normalizeBaseUrl (u : String) : String :=
  if containsSub "api.openai.com".data u.data = false ∧
      strEndsWith "/v1".data u.data = false then
    String.mk (rstripSlash u.data) ++ "/v1"
  else u

/-- Line 33: `chat_endpoint = base_url.rstrip('/') + "/chat/completions"`,
computed from the normalized base URL. -/
def chatEndpointOf (u : String) : String :=
  String.mk (rstripSlash (normalizeBaseUrl u).data) ++ "/chat/completions"

/-- The attributes set by `LLMClient.__init__`; `chatEndpoint = none`
models `not hasattr(self, 'chat_endpoint')`. -/
structure LLMClientState where
  apiKey : Option String
  baseUrl : Option String
  model : String
  chatEndpoint : Option String
deriving DecidableEq

/-- `LLMClient.__init__`: the constructor could in principle raise
(modelled by `Except`), but every branch of the source returns normally —
on a falsy base URL it logs an error and leaves the endpoint unset, and
the API key is not validated at construction at all. -/
def llmClientInit (apiKeyArg baseUrlArg envApiKey envBaseUrl : Option String)
    (model : String) : Except String LLMClientState :=
  if pyFalsyStr (pyOrStr baseUrlArg envBaseUrl) then
    .ok { apiKey := pyOrStr apiKeyArg envApiKey, baseUrl := pyOrStr baseUrlArg envBaseUrl
        , model := model, chatEndpoint := none }
  else
    match pyOrStr baseUrlArg envBaseUrl with
    | some u =>
      .ok { apiKey := pyOrStr apiKeyArg envApiKey, baseUrl := some (normalizeBaseUrl u)
          , model := model, chatEndpoint := some (chatEndpointOf u) }
    | none =>
      .ok { apiKey := pyOrStr apiKeyArg envApiKey, baseUrl := none
          , model := model, chatEndpoint := none }

/-- The `message` object of a completion choice. -/
structure ChoiceMessage where
  content : Option String
deriving DecidableEq

/-- One entry of the response's `choices` array. -/
structure Choice where
  message : Option ChoiceMessage
deriving DecidableEq

/-- The outcome of the HTTP interaction inside `llm_call`: the request
times out, fails (`raise_for_status` / `RequestException`), returns a body
that is not JSON (`response.json()` raises), or yields a parsed body whose
`choices` field is the given list (empty when missing or empty). -/
inductive HttpOutcome where
  | timeout
  | requestError
  | bodyNotJson
  | ok (choices : List Choice)

/-- `LLMClient.llm_call`.  `wantsStructured` is whether a `json_object` or
`json_schema` response format was requested; `jsonLoads` models
`json.loads` on the content string, `none` meaning a `JSONDecodeError`
(malformed output).  Every failure path of the source returns `None`. -/
def llm_call {α : Type} (st : LLMClientState) (wantsStructured : Bool)
    (jsonLoads : String → Option α) (outcome : HttpOutcome) : Option (α ⊕ String) :=
  if pyFalsyStr st.apiKey then none
  else if pyFalsyStr st.baseUrl || st.chatEndpoint.isNone then none
  else
    match outcome with
    | .timeout => none
    | .requestError => none
    | .bodyNotJson => none
    | .ok choices =>
      match choices with
      | [] => none
      | choice :: _ =>
        match choice.message with
        | none => none
        | some msg =>
          match msg.content with
          | none => none
          | some contentStr =>
            if contentStr == "" then none
            else if wantsStructured then (jsonLoads contentStr).map Sum.inl
            else some (.inr contentStr.trim)

/-- Counterexample to C4 as stated: constructing the client with the API
key, base URL and both environment variables all missing does not raise —
`__init__` returns normally, with the error merely logged. -/
theorem llm_client_init_counterexample :
    llmClientInit none none none none "default-model" =
      .ok ⟨none, none, "default-model", none⟩ := rfl

/-- C4 (amended): construction never raises, whatever configuration is
missing; missing credentials or endpoint instead surface at call time,
where `llm_call` returns no result, and every call-time failure kind —
timeout, transport error, non-JSON body, empty `choices`, missing message,
missing or empty content, or content failing to parse as the requested
JSON — likewise returns no result without raising. -/
theorem llm_client_failures (a b c d : Option String) (m : String)
    {α : Type} (st : LLMClientState) (w : Bool) (jl : String → Option α) :
    (∃ cs, llmClientInit a b c d m = .ok cs) ∧
    (∀ o, pyFalsyStr st.apiKey = true → llm_call st w jl o = none) ∧
    (∀ o, st.chatEndpoint = none → llm_call st w jl o = none) ∧
    llm_call st w jl .timeout = none ∧
    llm_call st w jl .requestError = none ∧
    llm_call st w jl .bodyNotJson = none ∧
    llm_call st w jl (.ok []) = none ∧
    (∀ rest, llm_call st w jl (.ok (⟨none⟩ :: rest)) = none) ∧
    (∀ rest, llm_call st w jl (.ok (⟨some ⟨none⟩⟩ :: rest)) = none) ∧
    (∀ s rest, jl s = none →
      llm_call st true jl (.ok (⟨some ⟨some s⟩⟩ :: rest)) = none) := by
  refine ⟨?_, ?_, ?_, ?_, ?_, ?_, ?_, ?_, ?_, ?_⟩
  · unfold llmClientInit
    split
    · exact ⟨_, rfl⟩
    · split
      · exact ⟨_, rfl⟩
      · exact ⟨_, rfl⟩
  · intro o h; simp [llm_call, h]
  · intro o h
    by_cases hk : pyFalsyStr st.apiKey <;> simp [llm_call, h, hk]
  · simp [llm_call]
  · simp [llm_call]
  · simp [llm_call]
  · simp [llm_call]
  · intro rest; simp [llm_call]
  · intro rest; simp [llm_call]
  · intro s rest h; simp [llm_call, h]

/-- Witness for `llm_client_failures`: a client whose endpoint attribute
was never set returns no result from a call. -/
theorem llm_client_failures_witness :
    llm_call ⟨some "k", some "u", "m", none⟩ true
      (fun _ => (none : Option SummaryResult)) .timeout = none :=
  (llm_client_failures none none none none "m" ⟨some "k", some "u", "m", none⟩ true
    (fun _ => (none : Option SummaryResult))).2.2.1 .timeout rfl

/-! ## Markdown output — `history_analyzer.py`, lines 298-315

A record writes its `Title:`/`URL:`/`Description:` block only when
`final_description` is truthy; otherwise only a warning is logged and the
loop continues with the next record.  The aggregate category and topic
counts of `data_extractor.py` are computed from this stream, so a record
with no block contributes nothing to them. -/

/-- The text block appended to the markdown stream for one record; `none`
when nothing is written (`if final_description:` — a missing or empty
description writes nothing).  The `Category:` and `Topics:` lines are
likewise guarded by Python truthiness. -/
def recordBlock (title url : String) (fa : FinalAnalysis) : Option String :=
  match fa.description with
  | none => none
  | some d =>
    if d = "" then none
    else some
      ("Title: " ++ title ++ "\n" ++ "URL: " ++ url ++ "\n" ++
        "Description: " ++ d ++ "\n" ++
        (match fa.category with
          | some cat => if cat = "" then "" else "Category: " ++ cat ++ "\n"
          | none => "") ++
        (match fa.topics with
          | some ts => if ts = [] then "" else
              "Topics: " ++ String.intercalate ", " ts ++ "\n"
          | none => "") ++
        "\n---\n\n")

/-- The run's markdown stream: each record (title, url, final analysis)
contributes its block; a record with no block is skipped and the run
continues with the remaining records. -/
def allBlocks (rs : List (String × String × FinalAnalysis)) : List String :=
  rs.filterMap (fun r => recordBlock r.1 r.2.1 r.2.2)

lemma processChunk_failed (cl : ChunkLists) (r : Option ChunkResult)
    (h : r = none ∨ ∃ cr, r = some cr ∧
      (cr.description = none ∨ cr.category = none ∨ cr.topics = none)) :
    processChunk cl r = cl := by
  rcases h with rfl | ⟨⟨rd, rc, rt⟩, rfl, hmiss⟩
  · rfl
  · rcases rd with _ | d <;> rcases rc with _ | c <;> rcases rt with _ | t <;>
      first
        | rfl
        | (exfalso; rcases hmiss with h | h | h <;> simp at h)

lemma foldl_processChunk_failed :
    ∀ (results : List (Option ChunkResult)),
      (∀ r ∈ results, r = none ∨ ∃ cr, r = some cr ∧
        (cr.description = none ∨ cr.category = none ∨ cr.topics = none)) →
      ∀ cl, results.foldl processChunk cl = cl := by
  intro results
  induction results with
  | nil => intro _ cl; rfl
  | cons r rs ih =>
    intro h cl
    rw [List.foldl_cons, processChunk_failed cl r (h r (List.mem_cons_self r rs))]
    exact ih (fun x hx => h x (List.mem_cons_of_mem r hx)) cl

/-- C7: a record whose processing ends with no final description — in
particular one for which every chunk analysis failed — is silently
excluded: no block is written for it, the output stream (from which the
aggregate category and topic counts are computed) is exactly the stream of
the remaining records, and the run continues.  Moreover an all-failed
record indeed ends with no description: empty accumulators yield a
`FinalAnalysis` with `description = none`. -/
theorem no_description_excluded (t u : String) (fa : FinalAnalysis)
    (hfa : fa.description = none) :
    recordBlock t u fa = none ∧
    (∀ pre post, allBlocks (pre ++ (t, u, fa) :: post) = allBlocks (pre ++ post)) ∧
    (∀ n flag summary results, (processChunks results).descriptions = [] →
      (combineResults n (processChunks results) flag summary).description = none) ∧
    (∀ results : List (Option ChunkResult),
      (∀ r ∈ results, r = none ∨ ∃ cr, r = some cr ∧
        (cr.description = none ∨ cr.category = none ∨ cr.topics = none)) →
      processChunks results = ⟨[], [], []⟩) := by
  have h1 : recordBlock t u fa = none := by
    unfold recordBlock
    rw [hfa]
  refine ⟨h1, ?_, ?_, ?_⟩
  · intro pre post
    simp [allBlocks, List.filterMap_append, List.filterMap_cons, h1]
  · intro n flag summary results h
    unfold combineResults
    rw [h]
  · intro results h
    exact foldl_processChunk_failed results h ⟨[], [], []⟩

/-- Witness for `no_description_excluded`: a descriptionless record
between other records leaves the stream unchanged. -/
theorem no_description_excluded_witness :
    recordBlock "T" "U" ⟨none, none, none⟩ = none ∧
    allBlocks ([("A", "B", ⟨some "x", none, none⟩)] ++ ("T", "U", ⟨none, none, none⟩) :: []) =
      allBlocks ([("A", "B", ⟨some "x", none, none⟩)] ++ []) :=
  ⟨(no_description_excluded "T" "U" ⟨none, none, none⟩ rfl).1,
    (no_description_excluded "T" "U" ⟨none, none, none⟩ rfl).2.1
      [("A", "B", ⟨some "x", none, none⟩)] []⟩

/-! ## Topic aggregation — `data_extractor.py` lines 46-52 and
`report_generator.py` lines 262-285

`data_extractor` counts topic strings exactly (a `Counter`, keys in
first-encounter order); `generate_html_report` then merges counts of
case-variant topics.  Strings are modelled as lists of code points
(`List Nat`), with the ASCII case mappings of Python's `str.lower` /
`str.upper` / `str.title`; `str.title` uppercases every character whose
predecessor is not cased (here: not an ASCII letter) and lowercases the
rest. -/

/-- ASCII `str.lower` on one code point. -/
def lowerCode (n : Nat) : Nat := if 65 ≤ n ∧ n ≤ 90 then n + 32 else n

/-- ASCII `str.upper` on one code point. -/
def upperCode (n : Nat) : Nat := if 97 ≤ n ∧ n ≤ 122 then n - 32 else n

/-- Whether a code point is a cased (ASCII) letter. -/
def isAlphaCode (n : Nat) : Bool :=
  decide ((65 ≤ n ∧ n ≤ 90) ∨ (97 ≤ n ∧ n ≤ 122))

/-- `s.lower()`. -/
def pyLower (s : List Nat) : List Nat := s.map lowerCode

/-- `s.title()`, tracking whether the previous character was cased. -/
def pyTitleGo (prevCased : Bool) : List Nat → List Nat
  | [] => []
  | c :: cs => (if prevCased then lowerCode c else upperCode c) :: pyTitleGo (isAlphaCode c) cs

/-- `s.title()`. -/
def pyTitle (s : List Nat) : List Nat := pyTitleGo false s

lemma lowerCode_lowerCode (n : Nat) : lowerCode (lowerCode n) = lowerCode n := by
  unfold lowerCode; split_ifs <;> omega

lemma lowerCode_upperCode (n : Nat) : lowerCode (upperCode n) = lowerCode n := by
  unfold lowerCode upperCode; split_ifs <;> omega

lemma upperCode_eq_of_lower_eq {a b : Nat} (h : lowerCode a = lowerCode b) :
    upperCode a = upperCode b := by
  unfold lowerCode at h; unfold upperCode
  split_ifs at h ⊢ <;> omega

lemma isAlphaCode_eq_of_lower_eq {a b : Nat} (h : lowerCode a = lowerCode b) :
    isAlphaCode a = isAlphaCode b := by
  unfold lowerCode at h; unfold isAlphaCode
  rw [decide_eq_decide]
  split_ifs at h <;> omega

lemma pyLower_cons (c : Nat) (cs : List Nat) :
    pyLower (c :: cs) = lowerCode c :: pyLower cs := rfl

lemma pyLower_pyTitleGo (s : List Nat) : ∀ p, pyLower (pyTitleGo p s) = pyLower s := by
  induction s with
  | nil => intro p; rfl
  | cons c cs ih =>
    intro p
    simp only [pyTitleGo, pyLower_cons, ih (isAlphaCode c)]
    cases p
    · simp [lowerCode_upperCode]
    · simp [lowerCode_lowerCode]

lemma pyTitleGo_eq_of_lower_eq :
    ∀ (a b : List Nat), pyLower a = pyLower b → ∀ p, pyTitleGo p a = pyTitleGo p b := by
  intro a
  induction a with
  | nil =>
    intro b h p
    cases b with
    | nil => rfl
    | cons y ys => simp [pyLower] at h
  | cons x xs ih =>
    intro b h p
    cases b with
    | nil => simp [pyLower] at h
    | cons y ys =>
      rw [pyLower_cons, pyLower_cons] at h
      injection h with h1 h2
      simp only [pyTitleGo]
      rw [isAlphaCode_eq_of_lower_eq h1, ih ys h2 (isAlphaCode y)]
      congr 1
      cases p
      · exact upperCode_eq_of_lower_eq h1
      · exact h1

/-- Case-variant strings have the same `str.title` form. -/
lemma pyTitle_eq_of_lower_eq {a b : List Nat} (h : pyLower a = pyLower b) :
    pyTitle a = pyTitle b :=
  pyTitleGo_eq_of_lower_eq a b h false

/-- `topics[key] = topics.get(key, 0) + c`: update an existing key in
place (a Python dict update keeps the key's position) or append the new
key at the end. -/
def upsertCount (key : List Nat) (c : Nat) : List (List Nat × Nat) → List (List Nat × Nat)
  | [] => [(key, c)]
  | (k, v) :: rest => if k = key then (k, v + c) :: rest else (k, v) :: upsertCount key c rest

/-- The inner `for key in list(topics.keys())` loop of the merge: add `c`
to the first key whose lowercase form equals `normalized`; `none` when no
key matches (`existing_key_found` stays false). -/
def addToFirstLowerMatch (normalized : List Nat) (c : Nat) :
    List (List Nat × Nat) → Option (List (List Nat × Nat))
  | [] => none
  | (k, v) :: rest =>
    if pyLower k = normalized then some ((k, v + c) :: rest)
    else (addToFirstLowerMatch normalized c rest).map (fun r => (k, v) :: r)

/-- One iteration of the case-insensitive topic merge of
`generate_html_report` (lines 263-280): when the lowercased topic is
itself a key of the accumulated dict, add the count to the first key with
that lowercase form (falling back to a title-case insert when none is
found); otherwise insert/update under the title-cased key. -/
def mergeStep (acc : List (List Nat × Nat)) (t : List Nat) (c : Nat) :
    List (List Nat × Nat) :=
  if acc.any (fun p => p.1 == pyLower t) then
    match addToFirstLowerMatch (pyLower t) c acc with
    | some acc2 => acc2
    | none => upsertCount (pyTitle t) c acc
  else upsertCount (pyTitle t) c acc

/-- The whole merge over the extracted topic counts (iterated in dict
insertion order). -/
def mergeTopics (orig : List (List Nat × Nat)) : List (List Nat × Nat) :=
  orig.foldl (fun acc p => mergeStep acc p.1 p.2) []

/-- One `Counter` increment of `data_extractor.py` (keys stay in
first-encounter order). -/
def counterAdd (m : List (List Nat × Nat)) (t : List Nat) : List (List Nat × Nat) :=
  upsertCount t 1 m

/-- The topic `Counter` of `data_extractor.py` over a stream of topic
occurrences. -/
def countOccurrences (ts : List (List Nat)) : List (List Nat × Nat) :=
  ts.foldl counterAdd []

/-- C8: two topic keys that are equal case-insensitively are merged into a
single entry whose count is the sum of their counts, keyed by the title
case of the first-seen display form; in particular aggregating one
occurrence of each of two case-variant topics yields a single entry with
count 2. -/
theorem topic_case_insensitive_merge (a b : List Nat) (m n : Nat)
    (h : pyLower a = pyLower b) :
    mergeTopics [(a, m), (b, n)] = [(pyTitle a, m + n)] ∧
    mergeTopics (countOccurrences [a, b]) = [(pyTitle a, 2)] := by
  have htitle : pyTitle b = pyTitle a := pyTitle_eq_of_lower_eq h.symm
  have hlowtitle : pyLower (pyTitle a) = pyLower a := pyLower_pyTitleGo a false
  have key : ∀ m n : Nat, mergeTopics [(a, m), (b, n)] = [(pyTitle a, m + n)] := by
    intro m n
    show mergeStep (mergeStep [] a m) b n = _
    have s1 : mergeStep [] a m = [(pyTitle a, m)] := rfl
    rw [s1]
    by_cases hc : pyTitle a = pyLower b
    · have hmatch : addToFirstLowerMatch (pyLower b) n [(pyTitle a, m)] =
          some [(pyTitle a, m + n)] := by
        unfold addToFirstLowerMatch
        rw [if_pos (by rw [hlowtitle, h])]
      have hcond : ([(pyTitle a, m)].any (fun p => p.1 == pyLower b)) = true := by
        simp [hc]
      unfold mergeStep
      rw [hcond]
      simp only [if_true]
      rw [hmatch]
    · have hupsert : upsertCount (pyTitle b) n [(pyTitle a, m)] = [(pyTitle a, m + n)] := by
        unfold upsertCount
        rw [htitle, if_pos rfl]
      have hcond : ([(pyTitle a, m)].any (fun p => p.1 == pyLower b)) = false := by
        simp [hc]
      unfold mergeStep
      rw [hcond]
      simpa using hupsert
  refine ⟨key m n, ?_⟩
  by_cases hab : a = b
  · subst hab
    have hcount : countOccurrences [a, a] = [(a, 2)] := by
      simp [countOccurrences, counterAdd, upsertCount]
    rw [hcount]
    show mergeStep [] a 2 = _
    rfl
  · have hcount : countOccurrences [a, b] = [(a, 1), (b, 1)] := by
      simp [countOccurrences, counterAdd, upsertCount, hab]
    rw [hcount]
    have := key 1 1
    simpa using this

/-- Witness for `topic_case_insensitive_merge`: the topics `"AI"`
(code points `[65, 73]`) and then `"ai"` (`[97, 105]`) aggregate to the
single entry `"Ai"` (`[65, 105]`) with count 2. -/
theorem topic_case_insensitive_merge_witness :
    pyLower [65, 73] = pyLower [97, 105] ∧
    mergeTopics (countOccurrences [[65, 73], [97, 105]]) = [([65, 105], 2)] :=
  ⟨by decide, by
    rw [(topic_case_insensitive_merge [65, 73] [97, 105] 1 1 (by decide)).2]
    decide⟩

end BrowserRecall
